import Mathlib

/-!
Verification development for `NT_DATA/evalutate_unet.py`, a linear
evaluation script for a binary image-segmentation model.

The script's numeric pipeline is shallowly embedded here:

* pixels are machine `uint8` values holding only `0`/`1`; they are embedded
  as `Nat` with explicit binarity hypotheses;
* floating-point probabilities and metric values are embedded as `ℚ`
  (the script only compares, divides and sums such values); the float
  constants `1e-6` and `0.5` are embedded as the rationals
  `mkRat 1 1000000` and `mkRat 1 2`;
* numpy true-division, which has no defined numeric result on a zero
  denominator, is embedded as an `Option`-valued division;
* binary images handed to OpenCV are embedded row-wise, one `Nat` bitmask
  per row (bit `j` of row `i` is pixel `(i, j)`), which keeps the
  morphology and connected-component operations executable.
-/

namespace NTEval

/-! ### Binarization (`preds = (raw_preds > optimal_threshold).astype(np.uint8)`) -/

/-- Elementwise thresholding of a flattened probability batch:
`(raw_preds > threshold).astype(np.uint8)`.  Strict `>`. -/
def binarize (t : ℚ) (xs : List ℚ) : List ℕ :=
  xs.map (fun p => if t < p then 1 else 0)

/-- Number of positive (value `1`) predictions at threshold `t`.
On a 0/1 array the numpy sum is the count of ones. -/
def posCount (t : ℚ) (xs : List ℚ) : ℕ :=
  (binarize t xs).sum

/-! ### Dice (`dice_score`, lines 70-72) -/

/-- `dice_score(y_true, y_pred)`:
`(2. * np.sum(y_true * y_pred)) / (np.sum(y_true) + np.sum(y_pred) + 1e-6)`. -/
def dice_score (y_true y_pred : List ℕ) : ℚ :=
  (2 * (((List.zipWith (fun a b => a * b) y_true y_pred).sum : ℕ) : ℚ)) /
    ((y_true.sum : ℚ) + (y_pred.sum : ℚ) + mkRat 1 1000000)

/-! ### Confusion matrix and clinical metrics (lines 91-94)

`confusion_matrix(y_true, y_pred).ravel()` on 0/1 arrays yields the four
counts `tn, fp, fn, tp` in that order; they are embedded as counts of the
four value pairs over the zipped flattened batches. -/

/-- True positives: positions where truth is `1` and prediction is `1`. -/
def tpCount (y_true y_pred : List ℕ) : ℕ :=
  (y_true.zip y_pred).countP (fun x => x.1 == 1 && x.2 == 1)

/-- False positives: truth `0`, prediction `1`. -/
def fpCount (y_true y_pred : List ℕ) : ℕ :=
  (y_true.zip y_pred).countP (fun x => x.1 == 0 && x.2 == 1)

/-- False negatives: truth `1`, prediction `0`. -/
def fnCount (y_true y_pred : List ℕ) : ℕ :=
  (y_true.zip y_pred).countP (fun x => x.1 == 1 && x.2 == 0)

/-- True negatives: truth `0`, prediction `0`. -/
def tnCount (y_true y_pred : List ℕ) : ℕ :=
  (y_true.zip y_pred).countP (fun x => x.1 == 0 && x.2 == 0)

/-- numpy true division: on a zero denominator there is no defined numeric
result (the evaluation script applies no guard there), embedded as `none`. -/
def npDiv (a b : ℚ) : Option ℚ :=
  if b = 0 then none else some (a / b)

/-- `sensitivity = tp / (tp + fn)` — no epsilon, no zero-guard. -/
def sensitivity (y_true y_pred : List ℕ) : Option ℚ :=
  npDiv (tpCount y_true y_pred)
    ((tpCount y_true y_pred : ℚ) + (fnCount y_true y_pred : ℚ))

/-- `specificity = tn / (tn + fp)` — no epsilon, no zero-guard. -/
def specificity (y_true y_pred : List ℕ) : Option ℚ :=
  npDiv (tnCount y_true y_pred)
    ((tnCount y_true y_pred : ℚ) + (fpCount y_true y_pred : ℚ))

/-- `precision = tp / (tp + fp)` — no epsilon, no zero-guard. -/
def precisionMetric (y_true y_pred : List ℕ) : Option ℚ :=
  npDiv (tpCount y_true y_pred)
    ((tpCount y_true y_pred : ℚ) + (fpCount y_true y_pred : ℚ))

/-! ### Mask coercion and validation (lines 18-23) -/

/-- `Y_test = (Y_test > 0.5).astype(np.uint8)`. -/
def coerceMask (ys : List ℚ) : List ℕ :=
  ys.map (fun y => if mkRat 1 2 < y then 1 else 0)

/-! ### Post-processing (lines 44-66)

A binary image is a list of rows; bit `j` of row `i` is pixel `(i, j)`.
The OpenCV calls are external library collaborators; they are modelled by
their documented semantics:

* `cv2.morphologyEx(mask, cv2.MORPH_CLOSE, np.ones((3,3)))` is dilation
  followed by erosion with a 3×3 all-ones structuring element; with the
  default border value, out-of-image pixels count as background for
  dilation and as foreground for erosion;
* `cv2.connectedComponentsWithStats` partitions the foreground into
  8-connected components, the per-label area statistic being the
  component's pixel count.  The loop over `sizes`/`labels` keeps exactly
  the pixels whose component has area `≥ 100`, so the rebuilt image is
  modelled pixelwise by that condition. -/

/-- Bits `0 .. w-1`: the in-image part of one row of width `w`. -/
def rowMask (w : ℕ) : ℕ := 2 ^ w - 1

/-- Horizontal part of the 3×3 dilation, within one row of width `w`. -/
def hDil (w r : ℕ) : ℕ := ((r ||| (r <<< 1)) ||| (r >>> 1)) &&& rowMask w

/-- 3×3 binary dilation (8-neighbourhood plus centre); out-of-image
pixels count as background. -/
def dilate (w : ℕ) (m : List ℕ) : List ℕ :=
  let d := m.map (hDil w)
  List.zipWith Nat.lor (List.zipWith Nat.lor d (d.drop 1 ++ [0])) (0 :: d.dropLast)

/-- In-image complement of every row. -/
def complRows (w : ℕ) (m : List ℕ) : List ℕ :=
  m.map (fun r => rowMask w ^^^ (r &&& rowMask w))

/-- 3×3 binary erosion, by duality with dilation; out-of-image pixels
count as foreground (the default OpenCV border for erosion). -/
def erode (w : ℕ) (m : List ℕ) : List ℕ := complRows w (dilate w (complRows w m))

/-- Morphological closing with the 3×3 all-ones kernel: dilation then
erosion (`cv2.morphologyEx(..., cv2.MORPH_CLOSE, np.ones((3,3)))`). -/
def close (w : ℕ) (m : List ℕ) : List ℕ := erode w (dilate w m)

/-- Pixel `(i, j)` of a row-encoded binary image. -/
def px (m : List ℕ) (i j : ℕ) : Bool := (m.getD i 0).testBit j

/-- Bit-count worker; the fuel bounds the number of halvings. -/
def popcountAux : ℕ → ℕ → ℕ
  | 0, _ => 0
  | fuel + 1, n => if n = 0 then 0 else n % 2 + popcountAux fuel (n / 2)

/-- Number of set bits of a row. -/
def popcount (n : ℕ) : ℕ := popcountAux n n

/-- Pixel count (foreground area) of a row-encoded binary image; this is
the `stats` area column of `cv2.connectedComponentsWithStats`. -/
def area (m : List ℕ) : ℕ := (m.map popcount).sum

/-- One step of component growth: take the 8-neighbourhood of the current
set and intersect with the foreground. -/
def grow (w : ℕ) (m S : List ℕ) : List ℕ := List.zipWith Nat.land (dilate w S) m

/-- Iterate `grow` to a fixpoint (the fuel `h·w` bounds the pixel count,
so the fixpoint is always reached). -/
def compIter (w : ℕ) (m : List ℕ) : ℕ → List ℕ → List ℕ
  | 0, S => S
  | fuel + 1, S =>
    let S' := grow w m S
    if S' = S then S else compIter w m fuel S'

/-- The single-pixel image `{(i, j)}` on `h` rows. -/
def seed (h i j : ℕ) : List ℕ := (List.range h).map (fun r => if r = i then 1 <<< j else 0)

/-- The 8-connected component of foreground pixel `(i, j)` in `m`
(empty when the pixel is background). -/
def comp (w : ℕ) (m : List ℕ) (i j : ℕ) : List ℕ :=
  compIter w m (m.length * w) (List.zipWith Nat.land (seed m.length i j) m)

/-- Row `i` of the size-filtered image: pixel `(i, j)` is kept exactly
when it is foreground and its component has area `≥ 100` (the
`sizes[i] >= 100` loop rebuilt pixelwise). -/
def keepRow (w : ℕ) (c : List ℕ) (i : ℕ) : ℕ :=
  (List.range w).foldl
    (fun acc j =>
      if px c i j = true ∧ 100 ≤ area (comp w c i j) then acc ||| (1 <<< j) else acc) 0

/-- The size-filtered image: zero everything, then repaint every
component of area `≥ 100`. -/
def keepLarge (w : ℕ) (c : List ℕ) : List ℕ := (List.range c.length).map (keepRow w c)

/-- Per-image post-processing: morphological closing, then, when any
foreground component exists (`n_labels > 1`), removal of all components
of area `< 100`; otherwise the closed mask passes through unchanged. -/
def postprocessImage (w : ℕ) (m : List ℕ) : List ℕ :=
  let processed := close w m
  if processed.all (fun r => r == 0) then processed else keepLarge w processed

/-- The 10×10 all-ones test image. -/
def fullTen : List ℕ := List.replicate 10 1023

/-- The 10×10 image with every pixel set except `(0, 0)`: a single
8-connected foreground component of exactly 99 pixels. -/
def mask99 : List ℕ := 1022 :: List.replicate 9 1023

/-! ### Threshold selection (lines 34-39)

`sklearn.metrics.precision_recall_curve` on the flattened label/probability
batches, followed by `np.argmax` over `2*(P*R)/(P+R+1e-6)` and indexing
into the returned `thresholds` array.  The library routine is modelled by
its implementation contract (`_binary_clf_curve`): sort the samples by
score descending (stable ascending mergesort, then reversed), record at
the last index of every tied-score block the cumulative true-positive and
false-positive counts, convert to precision/recall, drop the part after
full recall is first attained, reverse, and append the `(P, R) = (1, 0)`
sentinel point (which has no associated threshold). -/

/-- The `(label, score)` sample pairs in descending score order:
`np.argsort(y_score, kind="mergesort")[::-1]` applied to both arrays. -/
def sortDesc (pairs : List (Bool × ℚ)) : List (Bool × ℚ) :=
  (pairs.mergeSort (fun a b => decide (a.2 ≤ b.2))).reverse

/-- Cumulative count of positive labels among the first `k + 1` sorted
samples (`np.cumsum(y_true)[k]`). -/
def tpsAt (ls : List Bool) (k : ℕ) : ℕ :=
  ((ls.take (k + 1)).filter id).length

/-- `np.r_[np.where(np.diff(y_score))[0], y_true.size - 1]`: the last index
of every tied-score block of the descending score list. -/
def thresholdIdxs (ys : List ℚ) : List ℕ :=
  ((List.range (ys.length - 1)).filter
      (fun k => decide (¬ ys.getD k 0 = ys.getD (k + 1) 0))) ++
    [ys.length - 1]

/-- `_binary_clf_curve`: the `(fps, tps, threshold)` triples, one per
distinct threshold, in descending threshold order
(`fps = 1 + threshold_idxs - tps`). -/
def binaryClfCurve (pairs : List (Bool × ℚ)) : List (ℕ × ℕ × ℚ) :=
  let sorted := sortDesc pairs
  let ys := sorted.map (fun p => p.2)
  let ls := sorted.map (fun p => p.1)
  (thresholdIdxs ys).map (fun k => (k + 1 - tpsAt ls k, tpsAt ls k, ys.getD k 0))

/-- The `tps` column of the curve. -/
def prcTps (pairs : List (Bool × ℚ)) : List ℕ :=
  (binaryClfCurve pairs).map (fun t => t.2.1)

/-- `tps[-1]`: the total number of positive samples. -/
def prcTpsLast (pairs : List (Bool × ℚ)) : ℕ :=
  (prcTps pairs).getLastD 0

/-- `tps.searchsorted(tps[-1])` (left insertion point in the nondecreasing
`tps` column): the first index attaining full recall. -/
def prcLastInd (pairs : List (Bool × ℚ)) : ℕ :=
  (prcTps pairs).findIdx (fun v => decide (prcTpsLast pairs ≤ v))

/-- The curve entries kept by the slice `sl = slice(last_ind, None, -1)`
before reversal. -/
def prcKept (pairs : List (Bool × ℚ)) : List (ℕ × ℕ × ℚ) :=
  (binaryClfCurve pairs).take (prcLastInd pairs + 1)

/-- First return of `precision_recall_curve`:
`np.hstack((precision[sl], 1))` where `precision = tps/(tps+fps)`
(`0` where the denominator is zero, which never happens here). -/
def prcPrecisions (pairs : List (Bool × ℚ)) : List ℚ :=
  ((prcKept pairs).map (fun t =>
      if t.1 + t.2.1 = 0 then 0 else ((t.2.1 : ℕ) : ℚ) / (((t.1 + t.2.1 : ℕ)) : ℚ))).reverse
    ++ [1]

/-- Second return of `precision_recall_curve`:
`np.hstack((recall[sl], 0))`; when `tps[-1] = 0` (no positive sample)
recall is one everywhere, otherwise `recall = tps / tps[-1]`. -/
def prcRecalls (pairs : List (Bool × ℚ)) : List ℚ :=
  ((prcKept pairs).map (fun t =>
      if prcTpsLast pairs = 0 then 1
      else ((t.2.1 : ℕ) : ℚ) / ((prcTpsLast pairs : ℕ) : ℚ))).reverse
    ++ [0]

/-- Third return of `precision_recall_curve`: `thresholds[sl]` (one entry
shorter than the precision/recall arrays). -/
def prcThresholds (pairs : List (Bool × ℚ)) : List ℚ :=
  ((prcKept pairs).map (fun t => t.2.2)).reverse

/-- The scored array `2 * (precisions * recalls) / (precisions + recalls + 1e-6)`. -/
def f1List (pairs : List (Bool × ℚ)) : List ℚ :=
  List.zipWith (fun p r => 2 * (p * r) / (p + r + mkRat 1 1000000))
    (prcPrecisions pairs) (prcRecalls pairs)

/-- `np.argmax`: index of the first occurrence of the maximum value. -/
def argmaxFirst : List ℚ → ℕ
  | [] => 0
  | [_] => 0
  | a :: b :: t =>
    if (b :: t).getD (argmaxFirst (b :: t)) 0 ≤ a then 0
    else argmaxFirst (b :: t) + 1

/-- `optimal_threshold = thresholds[np.argmax(2 * (precisions * recalls) /
(precisions + recalls + 1e-6))]`; indexing out of bounds has no result. -/
def optimal_threshold (pairs : List (Bool × ℚ)) : Option ℚ :=
  (prcThresholds pairs)[argmaxFirst (f1List pairs)]?

end NTEval

namespace NTEval

/-! ## Theorems -/

/-- A zipped product against a 0/1-bounded list is dominated by the left sum. -/
theorem sum_zipWith_mul_le_left (a b : List ℕ) (hb : ∀ v ∈ b, v ≤ 1) :
    (List.zipWith (fun x y => x * y) a b).sum ≤ a.sum := by
  induction a generalizing b with
  | nil => simp
  | cons x xs ih =>
    cases b with
    | nil => simp
    | cons y ys =>
      have hy : y ≤ 1 := hb y (by simp)
      have hys : ∀ v ∈ ys, v ≤ 1 := fun v hv => hb v (by simp [hv])
      have h1 : x * y ≤ x := by
        calc x * y ≤ x * 1 := Nat.mul_le_mul_left x hy
        _ = x := Nat.mul_one x
      simpa using Nat.add_le_add h1 (ih ys hys)

/-- A zipped product against a 0/1-bounded list is dominated by the right sum. -/
theorem sum_zipWith_mul_le_right (a b : List ℕ) (ha : ∀ v ∈ a, v ≤ 1) :
    (List.zipWith (fun x y => x * y) a b).sum ≤ b.sum := by
  induction a generalizing b with
  | nil => simp
  | cons x xs ih =>
    cases b with
    | nil => simp
    | cons y ys =>
      have hx : x ≤ 1 := ha x (by simp)
      have hxs : ∀ v ∈ xs, v ≤ 1 := fun v hv => ha v (by simp [hv])
      have h1 : x * y ≤ y := by
        calc x * y ≤ 1 * y := Nat.mul_le_mul_right y hx
        _ = y := Nat.one_mul y
      simpa using Nat.add_le_add h1 (ih ys hxs)

/-- The embedded `1e-6` smoothing constant is positive. -/
theorem eps_pos : (0 : ℚ) < mkRat 1 1000000 := by decide

/-- **C4.** Binarization is elementwise with strict inequality: the
predicted label at position `i` is `1` exactly when the probability
strictly exceeds the threshold, and `0` otherwise. -/
theorem binarize_strict (t : ℚ) (xs : List ℚ) (i : ℕ) (hi : i < xs.length) :
    ((binarize t xs).getD i 0 = 1 ↔ t < xs.getD i 0) ∧
    ((binarize t xs).getD i 0 = 0 ↔ ¬ t < xs.getD i 0) := by
  have hlen : i < (binarize t xs).length := by
    simpa [binarize] using hi
  rw [List.getD_eq_getElem _ _ hlen, List.getD_eq_getElem _ _ hi]
  simp only [binarize, List.getElem_map]
  constructor
  · constructor
    · intro h
      by_contra hc
      simp [hc] at h
    · intro h
      simp [h]
  · constructor
    · intro h
      by_contra hc
      simp [hc] at h
    · intro h
      simp [h]

/-- **C4 witness.** A pixel with probability exactly `1/2` under threshold
`1/2` is predicted `0`; a pixel with probability `3/4` is predicted `1`. -/
theorem binarize_strict_witness :
    (0 < [mkRat 1 2, mkRat 3 4].length ∧
      ((binarize (mkRat 1 2) [mkRat 1 2, mkRat 3 4]).getD 0 0 = 0 ↔
        ¬ mkRat 1 2 < [mkRat 1 2, mkRat 3 4].getD 0 0)) ∧
    binarize (mkRat 1 2) [mkRat 1 2, mkRat 3 4] = [0, 1] :=
  ⟨⟨by decide, (binarize_strict (mkRat 1 2) [mkRat 1 2, mkRat 3 4] 0 (by decide)).2⟩,
    by decide⟩

/-- **C5.** Binarization is monotone in the threshold: for `t₁ ≤ t₂` the
number of positive predictions at `t₂` is at most that at `t₁`. -/
theorem posCount_antitone (t₁ t₂ : ℚ) (h : t₁ ≤ t₂) (xs : List ℚ) :
    posCount t₂ xs ≤ posCount t₁ xs := by
  induction xs with
  | nil => simp [posCount, binarize]
  | cons a l ih =>
    simp only [posCount, binarize, List.map_cons, List.sum_cons] at ih ⊢
    have hhead : (if t₂ < a then (1 : ℕ) else 0) ≤ (if t₁ < a then 1 else 0) := by
      by_cases h2 : t₂ < a
      · have h1 : t₁ < a := lt_of_le_of_lt h h2
        simp [h1, h2]
      · simp [h2]
    exact Nat.add_le_add hhead ih

/-- **C5 witness.** With probabilities `[0.2, 0.6, 0.9]`, raising the
threshold from `0.5` to `0.7` does not increase the positive count
(it drops from `2` to `1`). -/
theorem posCount_antitone_witness :
    (mkRat 1 2 ≤ mkRat 7 10 ∧
      posCount (mkRat 7 10) [mkRat 1 5, mkRat 3 5, mkRat 9 10] ≤
        posCount (mkRat 1 2) [mkRat 1 5, mkRat 3 5, mkRat 9 10]) ∧
    posCount (mkRat 7 10) [mkRat 1 5, mkRat 3 5, mkRat 9 10] = 1 ∧
    posCount (mkRat 1 2) [mkRat 1 5, mkRat 3 5, mkRat 9 10] = 2 :=
  ⟨⟨by decide, posCount_antitone (mkRat 1 2) (mkRat 7 10) (by decide) _⟩,
    by decide, by decide⟩

/-- **C6.** The Dice score is `2·|intersection| / (|true| + |pred| + 1e-6)`
over the flattened batch, and for binary arrays of matching shape it lies
in `[0, 1]`. -/
theorem dice_score_unit_interval (y_true y_pred : List ℕ)
    (hlen : y_true.length = y_pred.length)
    (ht : ∀ v ∈ y_true, v ≤ 1) (hp : ∀ v ∈ y_pred, v ≤ 1) :
    0 ≤ dice_score y_true y_pred ∧ dice_score y_true y_pred ≤ 1 := by
  have hinter : 2 * (List.zipWith (fun x y => x * y) y_true y_pred).sum ≤
      y_true.sum + y_pred.sum := by
    have h1 := sum_zipWith_mul_le_left y_true y_pred hp
    have h2 := sum_zipWith_mul_le_right y_true y_pred ht
    omega
  have hinterQ : (2 : ℚ) * (((List.zipWith (fun a b => a * b) y_true y_pred).sum : ℕ) : ℚ) ≤
      (y_true.sum : ℚ) + (y_pred.sum : ℚ) := by
    exact_mod_cast hinter
  have hden : (0 : ℚ) < (y_true.sum : ℚ) + (y_pred.sum : ℚ) + mkRat 1 1000000 := by
    have h0 : (0 : ℚ) ≤ (y_true.sum : ℚ) := Nat.cast_nonneg _
    have h1 : (0 : ℚ) ≤ (y_pred.sum : ℚ) := Nat.cast_nonneg _
    have := eps_pos
    linarith
  constructor
  · apply div_nonneg _ (le_of_lt hden)
    positivity
  · rw [dice_score, div_le_one hden]
    have heps := eps_pos
    linarith

/-- **C6 witness.** For `y_true = [1,0,1]`, `y_pred = [1,1,0]` the Dice
score lies in `[0,1]`, and equals `2/(4 + 1e-6) = 2000000/4000001`. -/
theorem dice_score_unit_interval_witness :
    (([1, 0, 1] : List ℕ).length = ([1, 1, 0] : List ℕ).length ∧
      0 ≤ dice_score [1, 0, 1] [1, 1, 0] ∧ dice_score [1, 0, 1] [1, 1, 0] ≤ 1) ∧
    dice_score [1, 0, 1] [1, 1, 0] = 2000000 / 4000001 :=
  ⟨⟨by decide,
    dice_score_unit_interval [1, 0, 1] [1, 1, 0] (by decide)
      (by decide) (by decide)⟩,
    by norm_num [dice_score, Rat.mkRat_eq_div]⟩

/-- **C7.** The four confusion-matrix counts over the flattened batches
partition the pixels: `tp + fp + fn + tn` equals the total pixel count. -/
theorem confusion_counts_total (y_true y_pred : List ℕ)
    (hlen : y_true.length = y_pred.length)
    (ht : ∀ v ∈ y_true, v ≤ 1) (hp : ∀ v ∈ y_pred, v ≤ 1) :
    tpCount y_true y_pred + fpCount y_true y_pred +
      fnCount y_true y_pred + tnCount y_true y_pred = y_true.length := by
  induction y_true generalizing y_pred with
  | nil => simp [tpCount, fpCount, fnCount, tnCount]
  | cons x xs ih =>
    cases y_pred with
    | nil => simp at hlen
    | cons y ys =>
      have hx : x ≤ 1 := ht x (by simp)
      have hy : y ≤ 1 := hp y (by simp)
      have hxs : ∀ v ∈ xs, v ≤ 1 := fun v hv => ht v (by simp [hv])
      have hys : ∀ v ∈ ys, v ≤ 1 := fun v hv => hp v (by simp [hv])
      have hlen' : xs.length = ys.length := by simpa using hlen
      have ihx := ih ys hlen' hxs hys
      simp only [tpCount, fpCount, fnCount, tnCount, List.zip_cons_cons,
        List.countP_cons] at ihx ⊢
      interval_cases x <;> interval_cases y <;> simp <;> omega

/-- **C7 witness.** For `y_true = [1,0,1,0]`, `y_pred = [1,1,0,0]` the four
counts are each `1` and sum to the pixel count `4`. -/
theorem confusion_counts_total_witness :
    (([1, 0, 1, 0] : List ℕ).length = ([1, 1, 0, 0] : List ℕ).length ∧
      tpCount [1, 0, 1, 0] [1, 1, 0, 0] + fpCount [1, 0, 1, 0] [1, 1, 0, 0] +
        fnCount [1, 0, 1, 0] [1, 1, 0, 0] + tnCount [1, 0, 1, 0] [1, 1, 0, 0] =
        ([1, 0, 1, 0] : List ℕ).length) ∧
    tpCount [1, 0, 1, 0] [1, 1, 0, 0] = 1 ∧ tnCount [1, 0, 1, 0] [1, 1, 0, 0] = 1 :=
  ⟨⟨by decide,
    confusion_counts_total [1, 0, 1, 0] [1, 1, 0, 0] (by decide)
      (by decide) (by decide)⟩,
    by decide, by decide⟩

/-- **C2.** The confusion-matrix metrics are unguarded: when
`tp + fn = 0` the sensitivity division has a zero denominator and no
defined numeric result, and when `tn + fp = 0` so does specificity; no
epsilon is applied in these formulas. -/
theorem clinical_metrics_division_by_zero (y_true y_pred : List ℕ) :
    (tpCount y_true y_pred + fnCount y_true y_pred = 0 →
      sensitivity y_true y_pred = none) ∧
    (tnCount y_true y_pred + fpCount y_true y_pred = 0 →
      specificity y_true y_pred = none) := by
  constructor
  · intro h
    have htp : tpCount y_true y_pred = 0 := by omega
    have hfn : fnCount y_true y_pred = 0 := by omega
    simp [sensitivity, npDiv, htp, hfn]
  · intro h
    have htn : tnCount y_true y_pred = 0 := by omega
    have hfp : fpCount y_true y_pred = 0 := by omega
    simp [specificity, npDiv, htn, hfp]

/-- **C2 witness.** A batch with no ground-truth positives (`y_true = [0,0]`,
`y_pred = [1,0]`) makes sensitivity undefined, and a batch with no
ground-truth negatives (`y_true = [1,1]`, `y_pred = [0,1]`) makes
specificity undefined. -/
theorem clinical_metrics_division_by_zero_witness :
    (tpCount [0, 0] [1, 0] + fnCount [0, 0] [1, 0] = 0 ∧
      sensitivity [0, 0] [1, 0] = none) ∧
    (tnCount [1, 1] [0, 1] + fpCount [1, 1] [0, 1] = 0 ∧
      specificity [1, 1] [0, 1] = none) :=
  ⟨⟨by decide,
    (clinical_metrics_division_by_zero [0, 0] [1, 0]).1 (by decide)⟩,
    ⟨by decide,
    (clinical_metrics_division_by_zero [1, 1] [0, 1]).2 (by decide)⟩⟩

/-- **C9.** After `(Y_test > 0.5).astype(np.uint8)` every mask value is `0`
or `1`, hence within `uint8` range and satisfying both validation
assertions (`max ≤ 1`, `min ≥ 0`, `uint8` representability): the abort
branch is unreachable. -/
theorem coerceMask_always_valid (ys : List ℚ) :
    ∀ v ∈ coerceMask ys, (v = 0 ∨ v = 1) ∧ v ≤ 1 ∧ v < 256 := by
  intro v hv
  simp only [coerceMask, List.mem_map] at hv
  obtain ⟨y, _, hy⟩ := hv
  subst hy
  by_cases hc : mkRat 1 2 < y
  · simp [hc]
  · simp [hc]

/-- **C9 witness.** Coercing the mask values `[0.7, 0.5, -3]` yields
`[1, 0, 0]`, and its first element passes the checks. -/
theorem coerceMask_always_valid_witness :
    ((1 : ℕ) ∈ coerceMask [mkRat 7 10, mkRat 1 2, -3] ∧
      ((1 : ℕ) = 0 ∨ (1 : ℕ) = 1) ∧ (1 : ℕ) ≤ 1 ∧ (1 : ℕ) < 256) ∧
    coerceMask [mkRat 7 10, mkRat 1 2, -3] = [1, 0, 0] :=
  ⟨⟨by decide, coerceMask_always_valid [mkRat 7 10, mkRat 1 2, -3] 1 (by decide)⟩,
    by decide⟩

/-! ### Structural lemmas for the post-processing pipeline -/

/-- Bit `k` of the `keepRow` fold is set exactly when `k` is an in-image
column whose pixel is kept. -/
theorem testBit_keepRow (w : ℕ) (im : List ℕ) (i k : ℕ) :
    (keepRow w im i).testBit k = true ↔
      k < w ∧ px im i k = true ∧ 100 ≤ area (comp w im i k) := by
  have gen : ∀ (n : ℕ) (acc : ℕ),
      (((List.range n).foldl
        (fun acc j =>
          if px im i j = true ∧ 100 ≤ area (comp w im i j) then acc ||| (1 <<< j) else acc)
        acc).testBit k = true ↔
      (acc.testBit k = true ∨ (k < n ∧ px im i k = true ∧ 100 ≤ area (comp w im i k)))) := by
    intro n
    induction n with
    | zero =>
      intro acc
      simp
    | succ n ih =>
      intro acc
      rw [List.range_succ, List.foldl_append, List.foldl_cons, List.foldl_nil]
      by_cases hcond : px im i n = true ∧ 100 ≤ area (comp w im i n)
      · rw [if_pos hcond, Nat.testBit_lor, Nat.one_shiftLeft, Nat.testBit_two_pow]
        simp only [Bool.or_eq_true, decide_eq_true_eq]
        rw [ih acc]
        constructor
        · rintro ((h | ⟨hk, hP⟩) | rfl)
          · exact Or.inl h
          · exact Or.inr ⟨Nat.lt_succ_of_lt hk, hP⟩
          · exact Or.inr ⟨Nat.lt_succ_self _, hcond⟩
        · rintro (h | ⟨hk, hP⟩)
          · exact Or.inl (Or.inl h)
          · rcases Nat.lt_succ_iff_lt_or_eq.mp hk with hk' | rfl
            · exact Or.inl (Or.inr ⟨hk', hP⟩)
            · exact Or.inr rfl
      · rw [if_neg hcond]
        rw [ih acc]
        constructor
        · rintro (h | ⟨hk, hP⟩)
          · exact Or.inl h
          · exact Or.inr ⟨Nat.lt_succ_of_lt hk, hP⟩
        · rintro (h | ⟨hk, hP⟩)
          · exact Or.inl h
          · rcases Nat.lt_succ_iff_lt_or_eq.mp hk with hk' | rfl
            · exact Or.inr ⟨hk', hP⟩
            · exact absurd hP hcond
  rw [keepRow, gen w 0]
  simp [Nat.zero_testBit]

/-- `keepLarge` reads back row by row. -/
theorem keepLarge_getD (w : ℕ) (im : List ℕ) (i : ℕ) :
    (keepLarge w im).getD i 0 = if i < im.length then keepRow w im i else 0 := by
  by_cases h : i < im.length
  · rw [if_pos h]
    have hlen : i < (keepLarge w im).length := by simpa [keepLarge] using h
    rw [List.getD_eq_getElem _ _ hlen]
    simp [keepLarge]
  · rw [if_neg h]
    apply List.getD_eq_default
    simp only [keepLarge, List.length_map, List.length_range]
    omega

/-- Pixelwise description of the size filter. -/
theorem px_keepLarge (w : ℕ) (im : List ℕ) (i j : ℕ) :
    px (keepLarge w im) i j = true ↔
      i < im.length ∧ j < w ∧ px im i j = true ∧ 100 ≤ area (comp w im i j) := by
  rw [px, keepLarge_getD]
  by_cases h : i < im.length
  · rw [if_pos h, testBit_keepRow]
    constructor
    · rintro ⟨hj, hpx, harea⟩
      exact ⟨h, hj, hpx, harea⟩
    · rintro ⟨_, hj, hpx, harea⟩
      exact ⟨hj, hpx, harea⟩
  · rw [if_neg h]
    simp only [Nat.zero_testBit, Bool.false_eq_true, false_iff]
    rintro ⟨hi, _⟩
    exact h hi

/-- In an all-zero image every pixel is background. -/
theorem px_of_all_zero (im : List ℕ) (h : im.all (fun r => r == 0) = true) (i j : ℕ) :
    px im i j = false := by
  rw [px]
  rcases Nat.lt_or_ge i im.length with hi | hi
  · have hzero : im[i] = 0 := by
      have := (List.all_eq_true.mp h) im[i] (List.getElem_mem hi)
      simpa using this
    rw [List.getD_eq_getElem _ _ hi, hzero]
    exact Nat.zero_testBit j
  · rw [List.getD_eq_default _ _ hi]
    exact Nat.zero_testBit j

/-- `complRows` keeps the row count. -/
theorem length_complRows (w : ℕ) (m : List ℕ) :
    (complRows w m).length = m.length := by
  simp [complRows]

/-- `dilate` keeps the row count. -/
theorem length_dilate (w : ℕ) (m : List ℕ) :
    (dilate w m).length = m.length := by
  simp only [dilate, List.length_zipWith, List.length_append, List.length_drop,
    List.length_map, List.length_cons, List.length_dropLast]
  omega

/-- `close` keeps the row count. -/
theorem length_close (w : ℕ) (m : List ℕ) :
    (close w m).length = m.length := by
  rw [close, erode, length_complRows, length_dilate, length_complRows, length_dilate]

/-- Every row produced by `complRows` fits in `w` bits. -/
theorem rows_complRows_lt (w : ℕ) (m : List ℕ) :
    ∀ r ∈ complRows w m, r < 2 ^ w := by
  intro r hr
  simp only [complRows, List.mem_map] at hr
  obtain ⟨s, _, rfl⟩ := hr
  have hmask : rowMask w < 2 ^ w := by
    rw [rowMask]
    exact Nat.sub_lt (Nat.pos_pow_of_pos w (by norm_num)) (by norm_num)
  exact Nat.xor_lt_two_pow hmask (lt_of_le_of_lt Nat.and_le_right hmask)

/-- Every row of a closed image fits in `w` bits. -/
theorem rows_close_lt (w : ℕ) (m : List ℕ) :
    ∀ r ∈ close w m, r < 2 ^ w := by
  intro r hr
  rw [close, erode] at hr
  exact rows_complRows_lt w _ r hr

/-- A closed image has no pixels at columns `≥ w`. -/
theorem px_close_high (w : ℕ) (m : List ℕ) (i j : ℕ) (hj : w ≤ j) :
    px (close w m) i j = false := by
  rw [px]
  rcases Nat.lt_or_ge i (close w m).length with hi | hi
  · rw [List.getD_eq_getElem _ _ hi]
    have hrow : (close w m)[i] < 2 ^ j :=
      lt_of_lt_of_le (rows_close_lt w m _ (List.getElem_mem hi))
        (Nat.pow_le_pow_right (by norm_num) hj)
    exact Nat.testBit_eq_false_of_lt hrow
  · rw [List.getD_eq_default _ _ hi]
    exact Nat.zero_testBit j

/-- **C3.** Every pixel retained by post-processing lies in a foreground
component of the closed mask of area `≥ 100`, and every pixel of the
closed mask whose component has area `< 100` is zeroed. -/
theorem postprocess_component_filter (w : ℕ) (m : List ℕ) (i j : ℕ) :
    (px (postprocessImage w m) i j = true →
      px (close w m) i j = true ∧ 100 ≤ area (comp w (close w m) i j)) ∧
    (px (close w m) i j = true → area (comp w (close w m) i j) < 100 →
      px (postprocessImage w m) i j = false) := by
  rw [postprocessImage]
  by_cases hz : (close w m).all (fun r => r == 0) = true
  · rw [if_pos hz]
    constructor
    · intro h
      rw [px_of_all_zero _ hz] at h
      exact absurd h (by simp)
    · intro h
      rw [px_of_all_zero _ hz] at h
      exact absurd h (by simp)
  · rw [if_neg hz]
    constructor
    · intro h
      rcases (px_keepLarge w (close w m) i j).mp h with ⟨_, _, hpx, harea⟩
      exact ⟨hpx, harea⟩
    · intro hpx harea
      rcases hpk : px (keepLarge w (close w m)) i j with _ | _
      · rfl
      · rcases (px_keepLarge w (close w m) i j).mp hpk with ⟨_, _, _, harea'⟩
        omega

/-- **C3 witness.** On the all-ones 10×10 image (a single 100-pixel
component) pixel `(0,0)` is retained and its component has area `≥ 100`,
and the whole mask survives post-processing; on the all-ones 3×3 image
(a 9-pixel component) pixel `(0,0)` of the closed mask is zeroed, and the
output is all-zero. -/
theorem postprocess_component_filter_witness :
    (px (postprocessImage 10 fullTen) 0 0 = true ∧
      px (close 10 fullTen) 0 0 = true ∧
      100 ≤ area (comp 10 (close 10 fullTen) 0 0)) ∧
    (px (close 3 [7, 7, 7]) 0 0 = true ∧
      area (comp 3 (close 3 [7, 7, 7]) 0 0) < 100 ∧
      px (postprocessImage 3 [7, 7, 7]) 0 0 = false) ∧
    postprocessImage 10 fullTen = fullTen ∧
    postprocessImage 3 [7, 7, 7] = [0, 0, 0] :=
  ⟨⟨by decide, (postprocess_component_filter 10 fullTen 0 0).1 (by decide)⟩,
    ⟨by decide, by decide,
      (postprocess_component_filter 3 [7, 7, 7] 0 0).2 (by decide) (by decide)⟩,
    by decide, by decide⟩

/-- **C3 counterexample.** A mask whose single foreground component has
exactly 99 pixels need NOT come out all-zero: on the 10×10 image missing
only pixel `(0,0)`, closing fills the missing corner, the component of the
closed mask has 100 pixels, and post-processing returns the full 10×10
mask rather than the all-zero one. -/
theorem postprocess_99px_not_all_zero :
    area mask99 = 99 ∧
    comp 10 mask99 0 1 = mask99 ∧
    close 10 mask99 = fullTen ∧
    postprocessImage 10 mask99 = fullTen ∧
    postprocessImage 10 mask99 ≠ List.replicate 10 0 := by
  refine ⟨by decide, by decide, by decide, by decide, ?_⟩
  intro h
  rw [show postprocessImage 10 mask99 = fullTen from by decide] at h
  exact absurd h (by decide)

/-- **C10.** If the closed mask has at least one foreground pixel but
every foreground component of it has area `< 100`, post-processing
returns the all-zero mask. -/
theorem postprocess_all_small_gives_zero (w : ℕ) (m : List ℕ)
    (h1 : ¬ (close w m).all (fun r => r == 0) = true)
    (h2 : ∀ i < (close w m).length, ∀ j < w,
      px (close w m) i j = true → area (comp w (close w m) i j) < 100) :
    postprocessImage w m = List.replicate (close w m).length 0 := by
  rw [postprocessImage]
  rw [if_neg h1]
  have hrow : ∀ i < (close w m).length, keepRow w (close w m) i = 0 := by
    intro i hi
    apply Nat.eq_of_testBit_eq
    intro k
    rw [Nat.zero_testBit]
    rcases hb : (keepRow w (close w m) i).testBit k with _ | _
    · rfl
    · rcases (testBit_keepRow w (close w m) i k).mp hb with ⟨hk, hpx, harea⟩
      have := h2 i hi k hk hpx
      omega
  apply List.ext_getElem
  · simp [keepLarge]
  · intro n h₁ h₂
    have hn : n < (close w m).length := by simpa [keepLarge] using h₁
    have hkl : (keepLarge w (close w m))[n] = keepRow w (close w m) n := by
      simp [keepLarge]
    rw [hkl, hrow n hn]
    rw [List.getElem_replicate]

/-- **C10 witness.** The all-ones 3×3 image closes to itself, has one
9-pixel foreground component, and post-processes to the all-zero mask. -/
theorem postprocess_all_small_gives_zero_witness :
    (¬ (close 3 [7, 7, 7]).all (fun r => r == 0) = true ∧
      (∀ i < (close 3 [7, 7, 7]).length, ∀ j < 3,
        px (close 3 [7, 7, 7]) i j = true →
          area (comp 3 (close 3 [7, 7, 7]) i j) < 100)) ∧
    postprocessImage 3 [7, 7, 7] = List.replicate (close 3 [7, 7, 7]).length 0 :=
  ⟨⟨by decide, by decide⟩,
    postprocess_all_small_gives_zero 3 [7, 7, 7] (by decide) (by decide)⟩

/-- **C8.** Post-processing is idempotent on masks already invariant under
closing and already free of sub-100-pixel components: on such masks one
application is the identity, so two applications equal one. -/
theorem postprocess_idempotent (w : ℕ) (m : List ℕ)
    (hc : close w m = m)
    (hbig : ∀ i < m.length, ∀ j < w,
      px m i j = true → 100 ≤ area (comp w m i j)) :
    postprocessImage w (postprocessImage w m) = postprocessImage w m := by
  have hrows : ∀ r ∈ m, r < 2 ^ w := by
    intro r hr
    have hr' : r ∈ close w m := by
      rw [hc]
      exact hr
    exact rows_close_lt w m r hr'
  have hfix : postprocessImage w m = m := by
    rw [postprocessImage]
    rw [hc]
    by_cases hz : m.all (fun r => r == 0) = true
    · rw [if_pos hz]
    · rw [if_neg hz]
      apply List.ext_getElem
      · simp [keepLarge]
      · intro n h₁ h₂
        have hn : n < m.length := by simpa [keepLarge] using h₁
        have hkl : (keepLarge w m)[n] = keepRow w m n := by
          simp [keepLarge]
        rw [hkl]
        apply Nat.eq_of_testBit_eq
        intro k
        rw [Bool.eq_iff_iff, testBit_keepRow]
        constructor
        · rintro ⟨_, hpx, _⟩
          rw [px, List.getD_eq_getElem _ _ hn] at hpx
          exact hpx
        · intro hbit
          have hk : k < w := by
            by_contra hk
            have hrow : m[n] < 2 ^ k :=
              lt_of_lt_of_le (hrows _ (List.getElem_mem hn))
                (Nat.pow_le_pow_right (by norm_num) (Nat.le_of_not_lt hk))
            rw [Nat.testBit_eq_false_of_lt hrow] at hbit
            exact absurd hbit (by simp)
          have hpx : px m n k = true := by
            rw [px, List.getD_eq_getElem _ _ hn]
            exact hbit
          exact ⟨hk, hpx, hbig n hn k hk hpx⟩
  rw [hfix]
  exact hfix

/-- **C8 witness.** The all-ones 10×10 image is invariant under closing,
its only component has 100 pixels, and post-processing it twice equals
post-processing it once (both give the mask back). -/
theorem postprocess_idempotent_witness :
    (close 10 fullTen = fullTen ∧
      (∀ i < fullTen.length, ∀ j < 10,
        px fullTen i j = true → 100 ≤ area (comp 10 fullTen i j))) ∧
    postprocessImage 10 (postprocessImage 10 fullTen) = postprocessImage 10 fullTen :=
  ⟨⟨by decide, by decide⟩,
    postprocess_idempotent 10 fullTen (by decide) (by decide)⟩

/-! ### Lemmas for threshold selection -/

/-- `np.argmax` of a nonempty array is a valid index. -/
theorem argmaxFirst_lt_length (l : List ℚ) (h : l ≠ []) :
    argmaxFirst l < l.length := by
  induction l with
  | nil => exact absurd rfl h
  | cons a t ih =>
    cases t with
    | nil => simp [argmaxFirst]
    | cons b u =>
      simp only [argmaxFirst]
      by_cases hle : (b :: u).getD (argmaxFirst (b :: u)) 0 ≤ a
      · rw [if_pos hle]
        simp
      · rw [if_neg hle]
        have := ih (by simp)
        simpa using this

/-- The value at `np.argmax` dominates every entry. -/
theorem argmaxFirst_le_getD (l : List ℚ) :
    ∀ j < l.length, l.getD j 0 ≤ l.getD (argmaxFirst l) 0 := by
  induction l with
  | nil =>
    intro j hj
    simp at hj
  | cons a t ih =>
    cases t with
    | nil =>
      intro j hj
      simp only [List.length_cons, List.length_nil] at hj
      have hj0 : j = 0 := by omega
      subst hj0
      simp [argmaxFirst]
    | cons b u =>
      intro j hj
      simp only [argmaxFirst]
      by_cases hle : (b :: u).getD (argmaxFirst (b :: u)) 0 ≤ a
      · rw [if_pos hle, List.getD_cons_zero]
        cases j with
        | zero => simp
        | succ j =>
          rw [List.getD_cons_succ]
          exact le_trans (ih j (by simpa using hj)) hle
      · rw [if_neg hle, List.getD_cons_succ]
        cases j with
        | zero =>
          rw [List.getD_cons_zero]
          exact le_of_lt (not_le.mp hle)
        | succ j =>
          rw [List.getD_cons_succ]
          exact ih j (by simpa using hj)

/-- `np.argmax` returns the FIRST index attaining the maximum: every
earlier entry is strictly smaller. -/
theorem argmaxFirst_first_max (l : List ℚ) :
    ∀ j < argmaxFirst l, l.getD j 0 < l.getD (argmaxFirst l) 0 := by
  induction l with
  | nil =>
    intro j hj
    simp [argmaxFirst] at hj
  | cons a t ih =>
    cases t with
    | nil =>
      intro j hj
      simp [argmaxFirst] at hj
    | cons b u =>
      intro j hj
      simp only [argmaxFirst] at hj ⊢
      by_cases hle : (b :: u).getD (argmaxFirst (b :: u)) 0 ≤ a
      · rw [if_pos hle] at hj
        exact absurd hj (by omega)
      · rw [if_neg hle] at hj ⊢
        rw [List.getD_cons_succ]
        cases j with
        | zero =>
          rw [List.getD_cons_zero]
          exact not_le.mp hle
        | succ j =>
          rw [List.getD_cons_succ]
          exact ih j (by omega)

/-- The curve always has at least one `(fps, tps, threshold)` triple. -/
theorem length_binaryClfCurve_pos (pairs : List (Bool × ℚ)) :
    0 < (binaryClfCurve pairs).length := by
  simp [binaryClfCurve, thresholdIdxs]

/-- The returned `thresholds` array is never empty. -/
theorem length_prcThresholds_pos (pairs : List (Bool × ℚ)) :
    0 < (prcThresholds pairs).length := by
  rw [prcThresholds, List.length_reverse, List.length_map, prcKept, List.length_take]
  exact lt_min (Nat.succ_pos _) (length_binaryClfCurve_pos pairs)

/-- `precisions` has one entry more than `thresholds`. -/
theorem length_prcPrecisions (pairs : List (Bool × ℚ)) :
    (prcPrecisions pairs).length = (prcThresholds pairs).length + 1 := by
  simp [prcPrecisions, prcThresholds]

/-- `recalls` has one entry more than `thresholds`. -/
theorem length_prcRecalls (pairs : List (Bool × ℚ)) :
    (prcRecalls pairs).length = (prcThresholds pairs).length + 1 := by
  simp [prcRecalls, prcThresholds]

/-- The F1 array has one entry more than `thresholds`. -/
theorem length_f1List (pairs : List (Bool × ℚ)) :
    (f1List pairs).length = (prcThresholds pairs).length + 1 := by
  rw [f1List, List.length_zipWith, length_prcPrecisions, length_prcRecalls, min_self]

/-- Every precision entry is nonnegative. -/
theorem prcPrecisions_nonneg (pairs : List (Bool × ℚ)) :
    ∀ x ∈ prcPrecisions pairs, 0 ≤ x := by
  intro x hx
  rw [prcPrecisions] at hx
  rcases List.mem_append.mp hx with hx | hx
  · rw [List.mem_reverse] at hx
    rcases List.mem_map.mp hx with ⟨t, _, rfl⟩
    by_cases h : t.1 + t.2.1 = 0
    · rw [if_pos h]
    · rw [if_neg h]
      exact div_nonneg (Nat.cast_nonneg _) (Nat.cast_nonneg _)
  · have hx1 : x = 1 := by simpa using hx
    rw [hx1]
    norm_num

/-- Every recall entry is nonnegative. -/
theorem prcRecalls_nonneg (pairs : List (Bool × ℚ)) :
    ∀ x ∈ prcRecalls pairs, 0 ≤ x := by
  intro x hx
  rw [prcRecalls] at hx
  rcases List.mem_append.mp hx with hx | hx
  · rw [List.mem_reverse] at hx
    rcases List.mem_map.mp hx with ⟨t, _, rfl⟩
    by_cases h : prcTpsLast pairs = 0
    · rw [if_pos h]
      norm_num
    · rw [if_neg h]
      exact div_nonneg (Nat.cast_nonneg _) (Nat.cast_nonneg _)
  · have hx0 : x = 0 := by simpa using hx
    rw [hx0]

/-- Reading the F1 array through `getD`, in range. -/
theorem getD_zipWith_f1 (ps rs : List ℚ) (j : ℕ)
    (hj : j < min ps.length rs.length) :
    (List.zipWith (fun p r => 2 * (p * r) / (p + r + mkRat 1 1000000)) ps rs).getD j 0 =
      2 * (ps.getD j 0 * rs.getD j 0) /
        (ps.getD j 0 + rs.getD j 0 + mkRat 1 1000000) := by
  have hz : j < (List.zipWith
      (fun p r => 2 * (p * r) / (p + r + mkRat 1 1000000)) ps rs).length := by
    rw [List.length_zipWith]
    exact hj
  rw [List.getD_eq_getElem _ _ hz, List.getElem_zipWith,
    List.getD_eq_getElem _ _ (lt_of_lt_of_le hj (min_le_left _ _)),
    List.getD_eq_getElem _ _ (lt_of_lt_of_le hj (min_le_right _ _))]

/-- Every F1 entry is nonnegative. -/
theorem f1List_nonneg (pairs : List (Bool × ℚ)) :
    ∀ j < (f1List pairs).length, 0 ≤ (f1List pairs).getD j 0 := by
  intro j hj
  have hmin : j < min (prcPrecisions pairs).length (prcRecalls pairs).length := by
    simpa [f1List, List.length_zipWith] using hj
  have hjp : j < (prcPrecisions pairs).length := lt_of_lt_of_le hmin (min_le_left _ _)
  have hjr : j < (prcRecalls pairs).length := lt_of_lt_of_le hmin (min_le_right _ _)
  have hval : (f1List pairs).getD j 0 =
      2 * ((prcPrecisions pairs).getD j 0 * (prcRecalls pairs).getD j 0) /
        ((prcPrecisions pairs).getD j 0 + (prcRecalls pairs).getD j 0 +
          mkRat 1 1000000) := by
    rw [f1List]
    exact getD_zipWith_f1 _ _ j hmin
  have hp : 0 ≤ (prcPrecisions pairs).getD j 0 := by
    rw [List.getD_eq_getElem _ _ hjp]
    exact prcPrecisions_nonneg pairs _ (List.getElem_mem hjp)
  have hr : 0 ≤ (prcRecalls pairs).getD j 0 := by
    rw [List.getD_eq_getElem _ _ hjr]
    exact prcRecalls_nonneg pairs _ (List.getElem_mem hjr)
  have heps := eps_pos
  rw [hval]
  apply div_nonneg
  · have := mul_nonneg hp hr
    linarith
  · linarith

/-- A list extended by one element reads that element at the old length. -/
theorem getD_append_singleton (A : List ℚ) (x : ℚ) :
    (A ++ [x]).getD A.length 0 = x := by
  have h : A.length < (A ++ [x]).length := by simp
  rw [List.getD_eq_getElem _ _ h]
  rw [List.getElem_append_right (le_refl _)]
  simp

/-- The appended sentinel point `(P, R) = (1, 0)` has `F1 = 0`. -/
theorem f1List_last_eq_zero (pairs : List (Bool × ℚ)) :
    (f1List pairs).getD (prcThresholds pairs).length 0 = 0 := by
  have hbp : (prcThresholds pairs).length < (prcPrecisions pairs).length := by
    rw [length_prcPrecisions]
    omega
  have hbr : (prcThresholds pairs).length < (prcRecalls pairs).length := by
    rw [length_prcRecalls]
    omega
  have hmin : (prcThresholds pairs).length <
      min (prcPrecisions pairs).length (prcRecalls pairs).length := lt_min hbp hbr
  have hlenA : (((prcKept pairs).map (fun t =>
      if t.1 + t.2.1 = 0 then 0
      else ((t.2.1 : ℕ) : ℚ) / (((t.1 + t.2.1 : ℕ)) : ℚ))).reverse).length =
      (prcThresholds pairs).length := by
    simp [prcThresholds]
  have hlenB : (((prcKept pairs).map (fun t =>
      if prcTpsLast pairs = 0 then 1
      else ((t.2.1 : ℕ) : ℚ) / ((prcTpsLast pairs : ℕ) : ℚ))).reverse).length =
      (prcThresholds pairs).length := by
    simp [prcThresholds]
  have hps : (prcPrecisions pairs).getD (prcThresholds pairs).length 0 = 1 := by
    rw [prcPrecisions, ← hlenA]
    exact getD_append_singleton _ 1
  have hrs : (prcRecalls pairs).getD (prcThresholds pairs).length 0 = 0 := by
    rw [prcRecalls, ← hlenB]
    exact getD_append_singleton _ 0
  have hval : (f1List pairs).getD (prcThresholds pairs).length 0 =
      2 * ((prcPrecisions pairs).getD (prcThresholds pairs).length 0 *
          (prcRecalls pairs).getD (prcThresholds pairs).length 0) /
        ((prcPrecisions pairs).getD (prcThresholds pairs).length 0 +
          (prcRecalls pairs).getD (prcThresholds pairs).length 0 +
          mkRat 1 1000000) := by
    rw [f1List]
    exact getD_zipWith_f1 _ _ _ hmin
  rw [hval, hps, hrs]
  norm_num

/-- Every returned threshold is one of the input scores. -/
theorem prcThresholds_mem_scores (pairs : List (Bool × ℚ)) (hne : pairs ≠ []) :
    ∀ x ∈ prcThresholds pairs, x ∈ pairs.map (fun p => p.2) := by
  intro x hx
  rw [prcThresholds, List.mem_reverse] at hx
  rcases List.mem_map.mp hx with ⟨t, ht, rfl⟩
  have ht' : t ∈ binaryClfCurve pairs := List.mem_of_mem_take ht
  simp only [binaryClfCurve, List.mem_map] at ht'
  rcases ht' with ⟨k, hk, rfl⟩
  have hyslen : ((sortDesc pairs).map (fun p => p.2)).length = pairs.length := by
    rw [List.length_map, sortDesc, List.length_reverse, List.length_mergeSort]
  have hplen : 0 < pairs.length := List.length_pos.mpr hne
  have hklt : k < ((sortDesc pairs).map (fun p => p.2)).length := by
    rcases List.mem_append.mp hk with hk | hk
    · have hkr := (List.mem_filter.mp hk).1
      rw [List.mem_range] at hkr
      omega
    · have hkval : k = ((sortDesc pairs).map (fun p => p.2)).length - 1 := by
        simpa [hyslen] using hk
      omega
  have hmem : ((sortDesc pairs).map (fun p => p.2)).getD k 0 ∈
      (sortDesc pairs).map (fun p => p.2) := by
    rw [List.getD_eq_getElem _ _ hklt]
    exact List.getElem_mem hklt
  rcases List.mem_map.mp hmem with ⟨p, hp, hpx⟩
  rw [sortDesc, List.mem_reverse, List.mem_mergeSort] at hp
  rw [List.mem_map]
  exact ⟨p, hp, hpx⟩

/-- **C1.** For every nonempty batch of binary labels and probabilities in
`[0,1]`, the selected threshold is defined, lies in `[0,1]`, is one of the
thresholds of the precision-recall sweep, and is the threshold at the
first index attaining the maximal `F1 = 2·P·R/(P+R+1e-6)`: the value at
the selected index dominates every F1 entry and every earlier entry is
strictly smaller. -/
theorem optimal_threshold_spec (pairs : List (Bool × ℚ)) (hne : pairs ≠ [])
    (hrange : ∀ x ∈ pairs, 0 ≤ x.2 ∧ x.2 ≤ 1) :
    ∃ i, i < (prcThresholds pairs).length ∧
      optimal_threshold pairs = some ((prcThresholds pairs).getD i 0) ∧
      (prcThresholds pairs).getD i 0 ∈ pairs.map (fun p => p.2) ∧
      0 ≤ (prcThresholds pairs).getD i 0 ∧ (prcThresholds pairs).getD i 0 ≤ 1 ∧
      (∀ j < (f1List pairs).length,
        (f1List pairs).getD j 0 ≤ (f1List pairs).getD i 0) ∧
      ∀ j < i, (f1List pairs).getD j 0 < (f1List pairs).getD i 0 := by
  have hnpos : 0 < (prcThresholds pairs).length := length_prcThresholds_pos pairs
  have hflen : (f1List pairs).length = (prcThresholds pairs).length + 1 :=
    length_f1List pairs
  have hfne : f1List pairs ≠ [] := by
    intro h
    rw [h] at hflen
    simp at hflen
  have hilt : argmaxFirst (f1List pairs) < (prcThresholds pairs).length + 1 := by
    rw [← hflen]
    exact argmaxFirst_lt_length _ hfne
  have hine : argmaxFirst (f1List pairs) ≠ (prcThresholds pairs).length := by
    intro he
    have h0lt : 0 < argmaxFirst (f1List pairs) := by omega
    have h0max := argmaxFirst_first_max (f1List pairs) 0 h0lt
    have h0nonneg := f1List_nonneg pairs 0 (by omega)
    have hlast := f1List_last_eq_zero pairs
    rw [he, hlast] at h0max
    linarith
  have hilt' : argmaxFirst (f1List pairs) < (prcThresholds pairs).length := by
    omega
  have hmem : (prcThresholds pairs).getD (argmaxFirst (f1List pairs)) 0 ∈
      pairs.map (fun p => p.2) := by
    apply prcThresholds_mem_scores pairs hne
    rw [List.getD_eq_getElem _ _ hilt']
    exact List.getElem_mem hilt'
  have hbounds : 0 ≤ (prcThresholds pairs).getD (argmaxFirst (f1List pairs)) 0 ∧
      (prcThresholds pairs).getD (argmaxFirst (f1List pairs)) 0 ≤ 1 := by
    rcases List.mem_map.mp hmem with ⟨p, hp, hpx⟩
    rw [← hpx]
    exact hrange p hp
  refine ⟨argmaxFirst (f1List pairs), hilt', ?_, hmem, hbounds.1, hbounds.2, ?_, ?_⟩
  · rw [optimal_threshold, List.getElem?_eq_getElem hilt',
      List.getD_eq_getElem _ _ hilt']
  · intro j hj
    exact argmaxFirst_le_getD (f1List pairs) j hj
  · intro j hj
    exact argmaxFirst_first_max (f1List pairs) j hj

/-- **C1 witness.** On the two-sample batch `(1, 0.9), (0, 0.3)` the
selected threshold is defined, is one of the two scores, and lies in
`[0,1]`. -/
theorem optimal_threshold_spec_witness :
    ∃ t, optimal_threshold [(true, mkRat 9 10), (false, mkRat 3 10)] = some t ∧
      t ∈ ([(true, mkRat 9 10), (false, mkRat 3 10)] : List (Bool × ℚ)).map
        (fun p => p.2) ∧
      0 ≤ t ∧ t ≤ 1 := by
  obtain ⟨i, hlt, heq, hmem, h0, h1, hmax, hfirst⟩ :=
    optimal_threshold_spec [(true, mkRat 9 10), (false, mkRat 3 10)]
      (by decide) (by decide)
  exact ⟨_, heq, hmem, h0, h1⟩

end NTEval
